import Mathlib

/-!
# Verification of `total_variation.py` (class `TotalVariation`)

Shallow embedding of the TV-L1 preconditioned primal-dual solver.

Conventions of the embedding:
* Real-valued numpy arrays are modelled over `ℚ` (the code's arithmetic is
  exact term-by-term; the stopping test, which uses a square root, is modelled
  by its squared equivalent, see `stopCond`).
* A 2-D image of shape `(h, w)` is modelled as its C-order flattening, a
  function `ℕ → ℚ` read at `r * w + j`; 1-D arrays are functions `ℕ → ℚ`
  together with the explicit lengths the code computes.  Positions beyond an
  array's length are never read by any sum below.
* The class attributes `self.coef` and `self.length` are passed explicitly
  (`c : List ℚ`, `L : ℕ`); the constructor ties `L = c.length - 1`.
-/

namespace TV

/-- `np.clip(x, lo, hi) = np.minimum(hi, np.maximum(x, lo))`. -/
def clip (lo hi x : ℚ) : ℚ := min hi (max x lo)

/-- Element `i` of the coefficient array (0 outside; sums below only use
    indices `< c.length`, exactly like `enumerate(self.coef)`). -/
def coefAt (c : List ℚ) (i : ℕ) : ℚ := c.getD i 0

/-- Length of the difference vector produced by `_tv`:
    `h*(w - length)` horizontal rows followed by `w*(h - length)` vertical
    rows (the two slice lengths appearing in `_tv`). -/
def tvLen (L h w : ℕ) : ℕ := h * (w - L) + w * (h - L)

/-- Length of the dual variable `3*h*w - length*(h+w)` as the sum
    `tvLen + h*w` (TV block followed by the data-fidelity block). -/
def dualLen (L h w : ℕ) : ℕ := tvLen L h w + h * w

/-- The size expression `2*h*w - self.length*(h+w)` exactly as the code
    computes it (`np.zeros` argument in `_tv`), over `ℤ`. -/
def tvLenZ (L h w : ℕ) : ℤ := 2 * (h : ℤ) * w - (L : ℤ) * ((h : ℤ) + w)

/-- The size expression `3*h*w - self.length*(h+w)` exactly as the code
    computes it (`np.zeros` argument in `_step_size` and `transform`). -/
def dualLenZ (L h w : ℕ) : ℤ := 3 * (h : ℤ) * w - (L : ℤ) * ((h : ℤ) + w)

/-- Entry `m` of `_tv(u)` for an image `u` of shape `(h, w)` (flattened).

    For `m < h*(w-L)` (the slice `ret[: h*w - length*h]`) this is the
    horizontal block: row `m / (w-L)`, column `m % (w-L)`, accumulating
    `c[i] * np.roll(u, -i, axis=1)[:, :-length]`, i.e. `c[i] * u[r, j+i]`
    (the roll never wraps on the kept columns because `j + i ≤ w - 1` for
    `i ≤ length = c.length - 1`).  The remaining `w*(h-L)` entries
    (`ret[h*w - length*h :]`) are the vertical block `c[i] * u[r+i, j]`. -/
def tvEnt (c : List ℚ) (L h w : ℕ) (u : ℕ → ℚ) (m : ℕ) : ℚ :=
  if m < h * (w - L) then
    ∑ i ∈ Finset.range c.length,
      coefAt c i * u (m / (w - L) * w + (m % (w - L) + i))
  else
    ∑ i ∈ Finset.range c.length,
      coefAt c i * u (((m - h * (w - L)) / w + i) * w + (m - h * (w - L)) % w)

/-- One step of the zero-insertion loop of `_transposed_tv`:
    `np.insert(f, [j*s for j in range(1, h)], 0)` as an index function.
    A zero is inserted before position `j*s` of the original array for
    `j = 1, …, h-1`, so the result has `h-1` chunks of stride `s+1`
    (original `s` entries followed by one zero) and then the untouched tail
    shifted by `h-1`. -/
def v0Ins (s h : ℕ) (f : ℕ → ℚ) (m : ℕ) : ℚ :=
  if m < (h - 1) * (s + 1) then
    (if m % (s + 1) < s then f (m / (s + 1) * s + m % (s + 1)) else 0)
  else f (m - (h - 1))

/-- `v0` of `_transposed_tv`: start from the copy of the horizontal block
    `v[: h*(w - length)]` and run the insertion loop
    `for i in range(self.length): v0 = np.insert(v0, [j*(w - length + i) ...], 0)`. -/
def v0Fun (L h w : ℕ) (v : ℕ → ℚ) : ℕ → ℚ :=
  (List.range L).foldl (fun g i => v0Ins (w - L + i) h g)
    (fun m => if m < h * (w - L) then v m else 0)

/-- Entry `p` of `_transposed_tv(v, (h, w))`.  The accumulator `ret` of
    length `h*w` receives, for each coefficient index `i`,
    `ret[i : i + len(v0)] += c[i] * v0` (with `len(v0) = h*w - length` after
    the insertions) and `ret[w*i : w*i + w*(h-length)] += c[i] * v[index1:]`
    where `index1 = h*(w - length)`. -/
def transposed_tv (c : List ℚ) (L h w : ℕ) (v : ℕ → ℚ) (p : ℕ) : ℚ :=
  ∑ i ∈ Finset.range c.length,
    coefAt c i *
      ((if i ≤ p ∧ p - i < h * w - L then v0Fun L h w v (p - i) else 0) +
       (if w * i ≤ p ∧ p - w * i < w * (h - L) then v (h * (w - L) + (p - w * i)) else 0))

/-- `np.sum(np.abs(self.coef))`. -/
def absSum (c : List ℚ) : ℚ := ∑ i ∈ Finset.range c.length, |coefAt c i|

/-- The denominator accumulated into `tau` by `_step_size` at pixel `p`:
    `lambd`, plus the tiled horizontal contribution
    (`tile[i : i + length + 1] += abs_coef` for `i in range(w - length)`,
    read at column `p % w`), plus the vertical contribution
    (`tau[w*i : w*i + w*(h-length)] += abs_coef[i]`). -/
def tauDenom (c : List ℚ) (L : ℕ) (lambd : ℚ) (h w : ℕ) (p : ℕ) : ℚ :=
  lambd
  + (∑ i ∈ Finset.range (w - L),
      if i ≤ p % w ∧ p % w ≤ i + L then |coefAt c (p % w - i)| else 0)
  + (∑ i ∈ Finset.range c.length,
      if w * i ≤ p ∧ p - w * i < w * (h - L) then |coefAt c i| else 0)

/-- `tau = 1. / tau` of `_step_size`: entry `p` of the primal step sizes. -/
def tau (c : List ℚ) (L : ℕ) (lambd : ℚ) (h w : ℕ) (p : ℕ) : ℚ :=
  1 / tauDenom c L lambd h w p

/-- `sigma` of `_step_size`: the first `tvLen` entries (`sigma[:-hw]`) are
    `1 / abs_sum`, the last `h*w` (`sigma[-hw:]`) are `1 / lambd`. -/
def sigma (c : List ℚ) (L : ℕ) (lambd : ℚ) (h w : ℕ) (m : ℕ) : ℚ :=
  if m < tvLen L h w then 1 / absSum c else 1 / lambd

/-- Row `i` of the stacked operator `K`: for `i < tvLen` the `i`-th TV
    difference row of `D` (obtained by applying the forward operator `_tv`
    to the indicator image of pixel `p`, which is exactly the matrix entry
    `D[i, p]` since `_tv` is linear); for `tvLen ≤ i` the data-fidelity row
    `lambd * e_(i - tvLen)`. -/
def Kmat (c : List ℚ) (L : ℕ) (lambd : ℚ) (h w : ℕ) (i p : ℕ) : ℚ :=
  if i < tvLen L h w then tvEnt c L h w (fun x => if x = p then 1 else 0) i
  else if i - tvLen L h w = p then lambd else 0

/-- The objective `np.sum(np.abs(self._tv(u))) + lambd * np.sum(np.abs(u - X))`. -/
def objective (c : List ℚ) (L : ℕ) (lambd : ℚ) (h w : ℕ) (u X : ℕ → ℚ) : ℚ :=
  (∑ m ∈ Finset.range (tvLen L h w), |tvEnt c L h w u m|)
  + lambd * ∑ p ∈ Finset.range (h * w), |u p - X p|

/-- The solver's configuration: exactly the attributes stored by
    `TotalVariation.__init__` (`max_iter` is an `ℤ` because Python accepts a
    negative iteration budget, over which `range` is empty). -/
structure Config where
  lambd : ℚ
  max_iter : ℤ
  coef : List ℚ
  tol : ℚ
  eps : ℚ
  saturation : Bool
  extended_output : Bool
  length : ℕ

/-- `TotalVariation.__init__`: stores every parameter verbatim and derives
    `self.length = len(coef) - 1`.  The constructor performs no validation,
    so it is a total function. -/
def mkTotalVariation (lambd : ℚ) (max_iter : ℤ) (coef : List ℚ) (tol eps : ℚ)
    (saturation extended_output : Bool) : Config :=
  { lambd := lambd, max_iter := max_iter, coef := coef, tol := tol, eps := eps,
    saturation := saturation, extended_output := extended_output,
    length := coef.length - 1 }

/-- The mutable state of one `transform` call: the primal image `res`
    (flattened), the dual variable, the objective trace `obj`, and the
    number of completed loop iterations (the index of `trange`). -/
structure State where
  res : ℕ → ℚ
  dual : ℕ → ℚ
  obj : List ℚ
  count : ℕ

/-- The initialization block of `transform`:
    `res = np.copy(X)`;
    `dual = np.zeros(3*h*w - (len(coef)-1)*(h+w))`;
    `dual[:-hw] = np.clip(sigma[:-hw] * self._tv(res), -1, 1)`;
    and the initial objective value when `extended_output`. -/
def initState (cfg : Config) (h w : ℕ) (X : ℕ → ℚ) : State where
  res := X
  dual := fun m =>
    if m < tvLen cfg.length h w then
      clip (-1) 1 (sigma cfg.coef cfg.length cfg.lambd h w m * tvEnt cfg.coef cfg.length h w X m)
    else 0
  obj := if cfg.extended_output then
      [objective cfg.coef cfg.length cfg.lambd h w X X] else []
  count := 0

/-- One iteration of the main loop of `transform`:
    `u = res - (tau * (_transposed_tv(dual[:-hw]) + lambd * dual[-hw:])).reshape`,
    clipped to `[0, 1]` when `saturation`;
    `bar_u = 2*u - res`;
    `dual[:-hw] += sigma[:-hw] * _tv(bar_u)`;
    `dual[-hw:] += sigma[-hw:] * lambd * (bar_u - X)`;
    `dual = np.clip(dual, -1, 1)`;
    `res = u`; the objective is appended when `extended_output`. -/
def stepState (cfg : Config) (h w : ℕ) (X : ℕ → ℚ) (s : State) : State :=
  let u : ℕ → ℚ := fun p =>
    let g := s.res p - tau cfg.coef cfg.length cfg.lambd h w p *
      (transposed_tv cfg.coef cfg.length h w s.dual p +
        cfg.lambd * s.dual (tvLen cfg.length h w + p))
    if cfg.saturation then clip 0 1 g else g
  let bar_u : ℕ → ℚ := fun p => 2 * u p - s.res p
  { res := u
    dual := fun m =>
      if m < tvLen cfg.length h w then
        clip (-1) 1 (s.dual m +
          sigma cfg.coef cfg.length cfg.lambd h w m * tvEnt cfg.coef cfg.length h w bar_u m)
      else if m < dualLen cfg.length h w then
        clip (-1) 1 (s.dual m +
          sigma cfg.coef cfg.length cfg.lambd h w m * cfg.lambd *
            (bar_u (m - tvLen cfg.length h w) - X (m - tvLen cfg.length h w)))
      else 0
    obj := s.obj ++ (if cfg.extended_output then
        [objective cfg.coef cfg.length cfg.lambd h w u X] else [])
    count := s.count + 1 }

/-- `np.linalg.norm(f)^2` over the first `N` entries. -/
def normSq (N : ℕ) (f : ℕ → ℚ) : ℚ := ∑ p ∈ Finset.range N, f p ^ 2

/-- The stopping test `np.linalg.norm(diff) / (np.linalg.norm(res) + eps) < tol`
    in squared (hence `ℚ`-decidable) form, with `a = ‖diff‖²` and
    `b = ‖res‖²`: for `tol, eps > 0` and `a, b ≥ 0` the test reads
    `√a < tol*√b + tol*eps`, i.e. `a - tol²b - tol²eps² < 2 tol² eps √b`,
    i.e. the left side is negative or its square is `< 4 tol⁴ eps² b`
    (see `stopCond_iff_sqrt`). -/
def stopCond (tol eps a b : ℚ) : Prop :=
  a - tol ^ 2 * b - tol ^ 2 * eps ^ 2 < 0 ∨
    (a - tol ^ 2 * b - tol ^ 2 * eps ^ 2) ^ 2 < 4 * tol ^ 4 * eps ^ 2 * b

instance stopCondDec (tol eps a b : ℚ) : Decidable (stopCond tol eps a b) := by
  unfold stopCond; infer_instance

/-- The main loop `for _ in trange(self.max_iter)` as fuelled recursion:
    each pass performs one `stepState` and then the `break` test on
    `diff = u - res` against the new `res`. -/
def runLoop (cfg : Config) (h w : ℕ) (X : ℕ → ℚ) : ℕ → State → State
  | 0, s => s
  | Nat.succ n, s =>
    let t := stepState cfg h w X s
    if stopCond cfg.tol cfg.eps (normSq (h * w) (fun p => t.res p - s.res p))
        (normSq (h * w) t.res)
    then t else runLoop cfg h w X n t

/-- `TotalVariation.transform` on an `(h, w)` image.  The method performs no
    dimension validation of its own; the guard below captures exactly when
    numpy's implicit array constructions succeed for a nonempty image: when
    `1 ≤ length ≤ min h w` every internal size is nonnegative and every
    slice is well formed, while for `length < 1` the slice `[:, :-0]` is
    empty and broadcasting fails, and for `length > min h w` a negative
    `np.zeros` size or a broadcast mismatch raises.  A successful call
    returns the final `res` and the objective trace. -/
def transform (cfg : Config) (h w : ℕ) (X : ℕ → ℚ) : Option ((ℕ → ℚ) × List ℚ) :=
  if 1 ≤ cfg.length ∧ cfg.length ≤ h ∧ cfg.length ≤ w then
    let s := runLoop cfg h w X cfg.max_iter.toNat (initState cfg h w X)
    some (s.res, s.obj)
  else none

/-- The number of completed iterations of the main loop in a `transform` run. -/
def itersExecuted (cfg : Config) (h w : ℕ) (X : ℕ → ℚ) : ℕ :=
  (runLoop cfg h w X cfg.max_iter.toNat (initState cfg h w X)).count

/-- The state at the end of the main loop of a `transform` call. -/
def finalState (cfg : Config) (h w : ℕ) (X : ℕ → ℚ) : State :=
  runLoop cfg h w X cfg.max_iter.toNat (initState cfg h w X)

/-! ## Arithmetic helpers -/

theorem mul_add_div_eq (a b B : ℕ) (hb : b < B) : (a * B + b) / B = a := by
  rw [mul_comm, Nat.mul_add_div (Nat.lt_of_le_of_lt (Nat.zero_le b) hb),
    Nat.div_eq_of_lt hb, add_zero]

theorem mul_add_mod_eq (a b B : ℕ) (hb : b < B) : (a * B + b) % B = b := by
  rw [mul_comm, Nat.mul_add_mod, Nat.mod_eq_of_lt hb]

theorem clip_le_hi (lo hi x : ℚ) : clip lo hi x ≤ hi := min_le_left _ _

theorem lo_le_clip (lo hi x : ℚ) (h : lo ≤ hi) : lo ≤ clip lo hi x :=
  le_min h (le_max_right _ _)

/-! ## Sum reindexing helpers -/

/-- Flattened sum over a `A × B` grid as a double sum. -/
theorem sum_range_mul_eq (A B : ℕ) (f : ℕ → ℚ) :
    ∑ m ∈ Finset.range (A * B), f m =
      ∑ a ∈ Finset.range A, ∑ b ∈ Finset.range B, f (a * B + b) := by
  induction A with
  | zero => simp
  | succ A ih =>
    rw [Nat.succ_mul, Finset.sum_range_add, ih, Finset.sum_range_succ]

/-- A window sum: the only nonzero terms of the outer sum are those with
    `d ≤ p < d + N`, re-indexed by `m = p - d`. -/
theorem sum_window_shift (M N d : ℕ) (g : ℕ → ℚ) (hdN : d + N ≤ M) :
    ∑ p ∈ Finset.range M, (if d ≤ p ∧ p - d < N then g (p - d) else 0) =
      ∑ m ∈ Finset.range N, g m := by
  have hsub : Finset.Ico d (d + N) ⊆ Finset.range M := by
    intro x hx
    simp only [Finset.mem_Ico] at hx
    exact Finset.mem_range.mpr (lt_of_lt_of_le hx.2 hdN)
  rw [← Finset.sum_subset hsub (fun x hx hnx => ?_)]
  · rw [Finset.sum_Ico_eq_sum_range]
    refine Finset.sum_congr (by rw [Nat.add_sub_cancel_left]) (fun m hm => ?_)
    have hmN : m < N := by
      have := Finset.mem_range.mp hm; omega
    rw [if_pos ⟨Nat.le_add_right d m, by omega⟩, Nat.add_sub_cancel_left]
  · rw [if_neg]
    simp only [Finset.mem_Ico, not_and_or, not_le, not_lt] at hnx
    rcases hnx with hx1 | hx2
    · exact fun hc => absurd hc.1 (Nat.not_le_of_lt hx1)
    · exact fun hc => absurd hc.2 (by omega)

/-- Truncating a sum of an `if `-guarded summand to the guard's range. -/
theorem sum_range_if_lt (n k : ℕ) (f : ℕ → ℚ) (hk : k ≤ n) :
    ∑ b ∈ Finset.range n, (if b < k then f b else 0) = ∑ b ∈ Finset.range k, f b := by
  rw [← Finset.sum_subset (Finset.range_subset.mpr hk) (fun x hx hnx => ?_)]
  · exact Finset.sum_congr rfl (fun b hb => if_pos (Finset.mem_range.mp hb))
  · exact if_neg (by simpa using hnx)

/-! ## C3, C4, C5, C10 -/

/-- C3: for coefficients `[1, -1]` (length 1) and `h, w ≥ 2`, the first
    `h*(w-1)` entries of `_tv(u)` are the per-row first differences
    `u[r,j] - u[r,j+1]` (`j = 0..w-2`, rows concatenated) and the remaining
    `w*(h-1)` entries are the column differences `u[i,j] - u[i+1,j]`. -/
theorem tv_first_differences (h w : ℕ) (hh : 2 ≤ h) (hw : 2 ≤ w) (u : ℕ → ℚ) :
    (∀ r j, r < h → j < w - 1 →
      tvEnt [1, -1] 1 h w u (r * (w - 1) + j) = u (r * w + j) - u (r * w + (j + 1))) ∧
    (∀ i j, i < h - 1 → j < w →
      tvEnt [1, -1] 1 h w u (h * (w - 1) + (i * w + j)) =
        u (i * w + j) - u ((i + 1) * w + j)) := by
  constructor
  · intro r j hr hj
    have hlt : r * (w - 1) + j < h * (w - 1) := by
      calc r * (w - 1) + j < r * (w - 1) + (w - 1) := by omega
        _ = (r + 1) * (w - 1) := by ring
        _ ≤ h * (w - 1) := Nat.mul_le_mul_right _ (by omega)
    rw [tvEnt, if_pos hlt]
    rw [show ([1, -1] : List ℚ).length = 2 from rfl]
    rw [Finset.sum_range_succ, Finset.sum_range_succ, Finset.sum_range_zero,
      mul_add_div_eq r j (w - 1) hj, mul_add_mod_eq r j (w - 1) hj]
    show 0 + 1 * u (r * w + (j + 0)) + -1 * u (r * w + (j + 1)) = _
    ring_nf
  · intro i j hi hj
    have hge : ¬ h * (w - 1) + (i * w + j) < h * (w - 1) := by omega
    rw [tvEnt, if_neg hge]
    rw [show ([1, -1] : List ℚ).length = 2 from rfl]
    rw [Nat.add_sub_cancel_left, Finset.sum_range_succ, Finset.sum_range_succ,
      Finset.sum_range_zero, mul_add_div_eq i j w hj, mul_add_mod_eq i j w hj]
    show 0 + 1 * u ((i + 0) * w + j) + -1 * u ((i + 1) * w + j) = _
    ring_nf

theorem tv_first_differences_witness :
    ((2 ≤ 3 ∧ 2 ≤ 3) ∧
      tvEnt [1, -1] 1 3 3 (fun p => (p : ℚ) ^ 2) (1 * (3 - 1) + 1) =
        ((1 * 3 + 1 : ℕ) : ℚ) ^ 2 - ((1 * 3 + (1 + 1) : ℕ) : ℚ) ^ 2) ∧
    tvEnt [1, -1] 1 3 3 (fun p => (p : ℚ) ^ 2) (3 * (3 - 1) + (1 * 3 + 2)) =
      ((1 * 3 + 2 : ℕ) : ℚ) ^ 2 - (((1 + 1) * 3 + 2 : ℕ) : ℚ) ^ 2 :=
  ⟨⟨⟨by norm_num, by norm_num⟩,
    (tv_first_differences 3 3 (by norm_num) (by norm_num) _).1 1 1 (by norm_num) (by norm_num)⟩,
    (tv_first_differences 3 3 (by norm_num) (by norm_num) _).2 1 2 (by norm_num) (by norm_num)⟩

/-- C4 counterexample: constructing the solver with an invalid configuration
    (a single coefficient, `lambd = -1`, `tol = eps = 0`, `max_iter = 0`)
    succeeds: `__init__` performs no validation, stores every parameter
    verbatim and sets `length = 0`.  No configuration error is raised. -/
theorem construct_invalid_succeeds :
    (mkTotalVariation (-1) 0 [(5 : ℚ)] 0 0 false false).coef = [(5 : ℚ)] ∧
    (mkTotalVariation (-1) 0 [(5 : ℚ)] 0 0 false false).lambd = -1 ∧
    (mkTotalVariation (-1) 0 [(5 : ℚ)] 0 0 false false).max_iter = 0 ∧
    (mkTotalVariation (-1) 0 [(5 : ℚ)] 0 0 false false).length = 0 :=
  ⟨rfl, rfl, rfl, rfl⟩

/-- C4 amended: construction never fails.  `__init__` performs no validation
    whatsoever: for every parameter combination (including fewer than 2
    coefficients, `lambd ≤ 0`, `tol ≤ 0`, `eps ≤ 0`, `max_iter ≤ 0`) it
    succeeds, stores the parameters verbatim, and derives
    `length = len(coef) - 1`; no configuration error exists in the code. -/
theorem construct_never_fails (lambd : ℚ) (max_iter : ℤ) (coef : List ℚ)
    (tol eps : ℚ) (saturation extended_output : Bool) :
    (mkTotalVariation lambd max_iter coef tol eps saturation extended_output).lambd = lambd ∧
    (mkTotalVariation lambd max_iter coef tol eps saturation extended_output).max_iter = max_iter ∧
    (mkTotalVariation lambd max_iter coef tol eps saturation extended_output).coef = coef ∧
    (mkTotalVariation lambd max_iter coef tol eps saturation extended_output).tol = tol ∧
    (mkTotalVariation lambd max_iter coef tol eps saturation extended_output).eps = eps ∧
    (mkTotalVariation lambd max_iter coef tol eps saturation extended_output).saturation = saturation ∧
    (mkTotalVariation lambd max_iter coef tol eps saturation extended_output).extended_output
      = extended_output ∧
    (mkTotalVariation lambd max_iter coef tol eps saturation extended_output).length
      = coef.length - 1 :=
  ⟨rfl, rfl, rfl, rfl, rfl, rfl, rfl, rfl⟩

/-- C5 counterexample: with the default coefficients `[1, -1]`
    (`length = 1`) and a `1 × 1` input image — both dimensions `≤ length` —
    `transform` does not fail: there is no dimension check, and every
    internal array construction is well formed, so the call returns
    normally. -/
theorem transform_small_image_succeeds :
    (mkTotalVariation 1 1000 [1, -1] (1 / 1000) (1 / 1000) false false).length = 1 ∧
    (transform (mkTotalVariation 1 1000 [1, -1] (1 / 1000) (1 / 1000) false false) 1 1
      (fun _ => (7 : ℚ))).isSome = true :=
  ⟨rfl, rfl⟩

/-- C5 amended: `transform` performs no dimension validation.  An input with
    a dimension `≤ length` is not rejected up front: with the default
    stencil `[1, -1]`, every `1 × 1` image (dimensions equal to `length`)
    runs through the whole solve and `transform` returns normally.  (A
    dimension strictly smaller than pieces of the stencil support can still
    abort, but only with a generic negative-array-size / broadcast error
    raised mid-construction, not a dedicated dimension error.) -/
theorem transform_no_dimension_check (x : ℚ) :
    (transform (mkTotalVariation 1 1000 [1, -1] (1 / 1000) (1 / 1000) false false) 1 1
      (fun _ => x)).isSome = true := rfl

/-- C10: for a stencil of `≥ 2` coefficients (`L = length ≥ 1`) and a shape
    with `h > L` and `w > L`, all sizes computed by `_tv`,
    `_transposed_tv` and `_step_size` are nonnegative and all slices stay
    in bounds: the `np.zeros` sizes `2*h*w - L*(h+w)` and
    `3*h*w - L*(h+w)` equal the nonnegative block sums `tvLen` and
    `dualLen = tvLen + h*w`; the re-padded `v0` has `h*w - L` entries; the
    accumulations `ret[i : i + (h*w - L)]` and
    `ret[w*i : w*i + w*(h-L)]` (also the `tau` slice of `_step_size`) end
    at or before `h*w`; and each `np.insert` position list stays within the
    current length of `v0`. -/
theorem operator_sizes (c : List ℚ) (h w : ℕ) (hc : 2 ≤ c.length)
    (hh : c.length - 1 < h) (hw : c.length - 1 < w) :
    tvLenZ (c.length - 1) h w = (tvLen (c.length - 1) h w : ℤ) ∧
    dualLenZ (c.length - 1) h w = (dualLen (c.length - 1) h w : ℤ) ∧
    0 ≤ tvLenZ (c.length - 1) h w ∧
    0 ≤ dualLenZ (c.length - 1) h w ∧
    h * w - (c.length - 1) =
      h * (w - (c.length - 1)) + (h - 1) * (c.length - 1) ∧
    (∀ i < c.length, i + (h * w - (c.length - 1)) ≤ h * w ∧
      w * i + w * (h - (c.length - 1)) ≤ h * w) ∧
    (∀ i < c.length - 1,
      (h - 1) * (w - (c.length - 1) + i) ≤ h * (w - (c.length - 1)) + (h - 1) * i) := by
  set L := c.length - 1 with hL
  have hLw : L ≤ w := le_of_lt hw
  have hLh : L ≤ h := le_of_lt hh
  have hL1 : 1 ≤ L := by omega
  have h1 : 1 ≤ h := by omega
  have w1 : 1 ≤ w := by omega
  have htv : tvLenZ L h w = (tvLen L h w : ℤ) := by
    rw [tvLenZ, tvLen]
    push_cast [Nat.cast_sub hLw, Nat.cast_sub hLh]
    ring
  have hdu : dualLenZ L h w = (dualLen L h w : ℤ) := by
    rw [dualLenZ, dualLen, tvLen]
    push_cast [Nat.cast_sub hLw, Nat.cast_sub hLh]
    ring
  have hLhw : L ≤ h * w := le_trans hLh (Nat.le_mul_of_pos_right h w1)
  refine ⟨htv, hdu, ?_, ?_, ?_, ?_, ?_⟩
  · rw [htv]; exact Int.natCast_nonneg _
  · rw [hdu]; exact Int.natCast_nonneg _
  · zify [hLw, hLhw, h1]; ring
  · intro i hi
    have hiL : i ≤ L := by omega
    constructor
    · omega
    · calc w * i + w * (h - L) ≤ w * L + w * (h - L) :=
            Nat.add_le_add_right (Nat.mul_le_mul_left w hiL) _
        _ = w * (L + (h - L)) := (Nat.mul_add w L (h - L)).symm
        _ = h * w := by rw [Nat.add_sub_cancel' hLh, Nat.mul_comm]
  · intro i _
    calc (h - 1) * (w - L + i) = (h - 1) * (w - L) + (h - 1) * i := Nat.mul_add _ _ _
      _ ≤ h * (w - L) + (h - 1) * i :=
          Nat.add_le_add_right (Nat.mul_le_mul_right _ (Nat.sub_le h 1)) _

theorem operator_sizes_witness :
    (2 ≤ ([2, -3, 1] : List ℚ).length ∧
      ([2, -3, 1] : List ℚ).length - 1 < 4 ∧ ([2, -3, 1] : List ℚ).length - 1 < 3) ∧
    tvLenZ (([2, -3, 1] : List ℚ).length - 1) 4 3 =
      (tvLen (([2, -3, 1] : List ℚ).length - 1) 4 3 : ℤ) :=
  ⟨⟨by norm_num, by norm_num, by norm_num⟩,
    (operator_sizes [2, -3, 1] 4 3 (by norm_num) (by norm_num) (by norm_num)).1⟩

/-! ## Loop lemmas (C6, C7, C8, C9) -/

theorem initState_dual_mem (cfg : Config) (h w : ℕ) (X : ℕ → ℚ) (m : ℕ) :
    -1 ≤ (initState cfg h w X).dual m ∧ (initState cfg h w X).dual m ≤ 1 := by
  show -1 ≤ (if m < tvLen cfg.length h w then _ else 0) ∧
    (if m < tvLen cfg.length h w then _ else 0) ≤ 1
  split
  · exact ⟨lo_le_clip _ _ _ (by norm_num), clip_le_hi _ _ _⟩
  · norm_num

theorem stepState_dual_mem (cfg : Config) (h w : ℕ) (X : ℕ → ℚ) (s : State) (m : ℕ) :
    -1 ≤ (stepState cfg h w X s).dual m ∧ (stepState cfg h w X s).dual m ≤ 1 := by
  show -1 ≤ (if m < tvLen cfg.length h w then _ else if m < dualLen cfg.length h w then _ else 0) ∧
    (if m < tvLen cfg.length h w then _ else if m < dualLen cfg.length h w then _ else 0) ≤ 1
  split
  · exact ⟨lo_le_clip _ _ _ (by norm_num), clip_le_hi _ _ _⟩
  · split
    · exact ⟨lo_le_clip _ _ _ (by norm_num), clip_le_hi _ _ _⟩
    · norm_num

theorem stepState_res_mem (cfg : Config) (h w : ℕ) (X : ℕ → ℚ) (s : State)
    (hsat : cfg.saturation = true) (p : ℕ) :
    0 ≤ (stepState cfg h w X s).res p ∧ (stepState cfg h w X s).res p ≤ 1 := by
  show 0 ≤ (if cfg.saturation then clip 0 1 _ else _) ∧
    (if cfg.saturation then clip 0 1 _ else _) ≤ 1
  rw [hsat]
  exact ⟨lo_le_clip _ _ _ (by norm_num), clip_le_hi _ _ _⟩

theorem runLoop_res_mem_preserved (cfg : Config) (h w : ℕ) (X : ℕ → ℚ)
    (hsat : cfg.saturation = true) :
    ∀ n s, (∀ p, 0 ≤ s.res p ∧ s.res p ≤ 1) →
      ∀ p, 0 ≤ (runLoop cfg h w X n s).res p ∧ (runLoop cfg h w X n s).res p ≤ 1 := by
  intro n
  induction n with
  | zero => intro s hs; exact hs
  | succ n ih =>
    intro s _
    rw [runLoop]
    split
    · exact stepState_res_mem cfg h w X s hsat
    · exact ih _ (stepState_res_mem cfg h w X s hsat)

theorem iterate_count (cfg : Config) (h w : ℕ) (X : ℕ → ℚ) :
    ∀ (n : ℕ) (s : State), ((stepState cfg h w X)^[n] s).count = s.count + n := by
  intro n
  induction n with
  | zero => intro s; simp
  | succ n ih =>
    intro s
    rw [Function.iterate_succ_apply, ih]
    show s.count + 1 + n = s.count + (n + 1)
    omega

theorem runLoop_eq_iterate (cfg : Config) (h w : ℕ) (X : ℕ → ℚ) :
    ∀ (n : ℕ) (s : State), ∃ j ≤ n,
      runLoop cfg h w X n s = (stepState cfg h w X)^[j] s := by
  intro n
  induction n with
  | zero => intro s; exact ⟨0, le_refl 0, rfl⟩
  | succ n ih =>
    intro s
    rw [runLoop]
    split
    · exact ⟨1, by omega, (Function.iterate_one _ ▸ rfl)⟩
    · obtain ⟨j, hj, hrun⟩ := ih (stepState cfg h w X s)
      exact ⟨j + 1, by omega, by rw [hrun, Function.iterate_succ_apply]⟩

theorem iterate_obj_empty (cfg : Config) (h w : ℕ) (X : ℕ → ℚ)
    (hx : cfg.extended_output = false) :
    ∀ k, ((stepState cfg h w X)^[k] (initState cfg h w X)).obj = [] := by
  intro k
  induction k with
  | zero => show (initState cfg h w X).obj = []; rw [initState]; simp [hx]
  | succ k ih =>
    rw [Function.iterate_succ_apply']
    show ((stepState cfg h w X)^[k] (initState cfg h w X)).obj ++ _ = []
    rw [ih, hx]
    rfl

theorem iterate_obj_trace (cfg : Config) (h w : ℕ) (X : ℕ → ℚ)
    (hx : cfg.extended_output = true) :
    ∀ k, ((stepState cfg h w X)^[k] (initState cfg h w X)).obj.length = k + 1 ∧
      ∀ j ≤ k, ((stepState cfg h w X)^[k] (initState cfg h w X)).obj.getD j 0 =
        objective cfg.coef cfg.length cfg.lambd h w
          (((stepState cfg h w X)^[j] (initState cfg h w X)).res) X := by
  intro k
  induction k with
  | zero =>
    constructor
    · show (initState cfg h w X).obj.length = 1
      rw [initState]; simp [hx]
    · intro j hj
      interval_cases j
      show (initState cfg h w X).obj.getD 0 0 = _
      rw [initState]
      simp only [hx, if_pos]
      rfl
  | succ k ih =>
    have hstep : ((stepState cfg h w X)^[k+1] (initState cfg h w X)).obj =
        ((stepState cfg h w X)^[k] (initState cfg h w X)).obj ++
          [objective cfg.coef cfg.length cfg.lambd h w
            (((stepState cfg h w X)^[k+1] (initState cfg h w X)).res) X] := by
      rw [Function.iterate_succ_apply']
      show ((stepState cfg h w X)^[k] (initState cfg h w X)).obj ++
          (if cfg.extended_output then _ else []) = _
      rw [hx]
      rfl
    constructor
    · rw [hstep, List.length_append, ih.1]
      rfl
    · intro j hj
      rcases Nat.lt_or_ge j (k + 1) with hlt | hge
      · rw [hstep, List.getD_append _ _ _ _ (by rw [ih.1]; omega)]
        exact ih.2 j (by omega)
      · have hjeq : j = k + 1 := by omega
        subst hjeq
        rw [hstep, List.getD_append_right _ _ _ _ (by rw [ih.1]), ih.1]
        simp

/-- C6: throughout every run of `transform` the dual variable stays in the
    box `[-1, 1]`: every entry (TV block and data-fidelity block alike) is
    in `[-1, 1]` immediately after initialization (`n = 0`) and after every
    completed iteration (`n ≥ 1`) — in the code the TV block is initialized
    through `np.clip(…, -1, 1)`, the data block to `0`, and each iteration
    ends with `dual = np.clip(dual, -1, 1)`. -/
theorem dual_in_box (cfg : Config) (h w : ℕ) (X : ℕ → ℚ) (n : ℕ) (m : ℕ)
    (hm : m < dualLen cfg.length h w) :
    -1 ≤ ((stepState cfg h w X)^[n] (initState cfg h w X)).dual m ∧
      ((stepState cfg h w X)^[n] (initState cfg h w X)).dual m ≤ 1 := by
  cases n with
  | zero => exact initState_dual_mem cfg h w X m
  | succ n =>
    rw [Function.iterate_succ_apply']
    exact stepState_dual_mem cfg h w X _ m

theorem dual_in_box_witness :
    0 < dualLen (mkTotalVariation 1 5 [1, -1] 1 1 false false).length 2 2 ∧
    (-1 ≤ ((stepState (mkTotalVariation 1 5 [1, -1] 1 1 false false) 2 2 (fun p => (p : ℚ)))^[3]
        (initState (mkTotalVariation 1 5 [1, -1] 1 1 false false) 2 2 (fun p => (p : ℚ)))).dual 0 ∧
      ((stepState (mkTotalVariation 1 5 [1, -1] 1 1 false false) 2 2 (fun p => (p : ℚ)))^[3]
        (initState (mkTotalVariation 1 5 [1, -1] 1 1 false false) 2 2 (fun p => (p : ℚ)))).dual 0 ≤ 1) :=
  ⟨by norm_num [dualLen, tvLen, mkTotalVariation],
    dual_in_box (mkTotalVariation 1 5 [1, -1] 1 1 false false) 2 2 (fun p => (p : ℚ)) 3 0
      (by norm_num [dualLen, tvLen, mkTotalVariation])⟩

/-- C7: with saturation enabled and `max_iter ≥ 1`, every pixel of the
    image returned by `transform` lies in `[0, 1]`, for every input image
    (including inputs with values outside `[0, 1]`): the last statement
    executed on the primal iterate in each iteration is
    `np.clip(…, 0, 1)` and the returned `res` is the final such iterate. -/
theorem saturation_output_range (cfg : Config) (h w : ℕ) (X : ℕ → ℚ)
    (hsat : cfg.saturation = true) (hmi : 1 ≤ cfg.max_iter)
    (hg : 1 ≤ cfg.length ∧ cfg.length ≤ h ∧ cfg.length ≤ w) (p : ℕ) :
    transform cfg h w X = some ((finalState cfg h w X).res, (finalState cfg h w X).obj) ∧
    0 ≤ (finalState cfg h w X).res p ∧ (finalState cfg h w X).res p ≤ 1 := by
  refine ⟨by unfold transform finalState; rw [if_pos hg], ?_⟩
  have hn : 1 ≤ cfg.max_iter.toNat := by omega
  obtain ⟨n, hn⟩ : ∃ n, cfg.max_iter.toNat = n + 1 := ⟨cfg.max_iter.toNat - 1, by omega⟩
  unfold finalState
  rw [hn, runLoop]
  split
  · exact stepState_res_mem cfg h w X _ hsat p
  · exact runLoop_res_mem_preserved cfg h w X hsat n _
      (stepState_res_mem cfg h w X _ hsat) p

theorem saturation_output_range_witness :
    ((mkTotalVariation 1 2 [1, -1] 1 1 true false).saturation = true ∧
      1 ≤ (mkTotalVariation 1 2 [1, -1] 1 1 true false).max_iter ∧
      1 ≤ (mkTotalVariation 1 2 [1, -1] 1 1 true false).length ∧
      (mkTotalVariation 1 2 [1, -1] 1 1 true false).length ≤ 2 ∧
      (mkTotalVariation 1 2 [1, -1] 1 1 true false).length ≤ 2) ∧
    (0 ≤ (finalState (mkTotalVariation 1 2 [1, -1] 1 1 true false) 2 2
        (fun p => if p = 0 then -1/2 else 3/2)).res 0 ∧
      (finalState (mkTotalVariation 1 2 [1, -1] 1 1 true false) 2 2
        (fun p => if p = 0 then -1/2 else 3/2)).res 0 ≤ 1) :=
  ⟨⟨rfl, by norm_num [mkTotalVariation], by norm_num [mkTotalVariation],
      by norm_num [mkTotalVariation], by norm_num [mkTotalVariation]⟩,
    (saturation_output_range (mkTotalVariation 1 2 [1, -1] 1 1 true false) 2 2
      (fun p => if p = 0 then -1/2 else 3/2) rfl (by norm_num [mkTotalVariation])
      (by norm_num [mkTotalVariation]) 0).2⟩

/-- C8: the objective trace returned by `transform` is empty when
    `extended_output` is false; when it is true, its length is `1` plus the
    number of iterations executed, its first entry is the objective
    `Σ|D(u₀)| + λ Σ|u₀ - X|` at `u₀ = X`, and entry `k` is the objective at
    the primal iterate after the `k`-th completed iteration. -/
theorem objective_trace (cfg : Config) (h w : ℕ) (X : ℕ → ℚ)
    (hg : 1 ≤ cfg.length ∧ cfg.length ≤ h ∧ cfg.length ≤ w) :
    transform cfg h w X = some ((finalState cfg h w X).res, (finalState cfg h w X).obj) ∧
    (cfg.extended_output = false → (finalState cfg h w X).obj = []) ∧
    (cfg.extended_output = true →
      (finalState cfg h w X).obj.length = 1 + itersExecuted cfg h w X ∧
      (finalState cfg h w X).obj.getD 0 0 =
        objective cfg.coef cfg.length cfg.lambd h w X X ∧
      ∀ k ≤ itersExecuted cfg h w X,
        (finalState cfg h w X).obj.getD k 0 =
          objective cfg.coef cfg.length cfg.lambd h w
            (((stepState cfg h w X)^[k] (initState cfg h w X)).res) X) := by
  obtain ⟨j, hj, hrun⟩ := runLoop_eq_iterate cfg h w X cfg.max_iter.toNat (initState cfg h w X)
  have hfin : finalState cfg h w X = (stepState cfg h w X)^[j] (initState cfg h w X) := hrun
  have hcount : itersExecuted cfg h w X = j := by
    show (runLoop cfg h w X cfg.max_iter.toNat (initState cfg h w X)).count = j
    rw [hrun, iterate_count]
    simp [initState]
  refine ⟨by unfold transform finalState; rw [if_pos hg], fun hx => ?_, fun hx => ?_⟩
  · rw [hfin]
    exact iterate_obj_empty cfg h w X hx j
  · obtain ⟨hlen, hget⟩ := iterate_obj_trace cfg h w X hx j
    refine ⟨by rw [hfin, hlen, hcount]; omega, ?_, ?_⟩
    · rw [hfin, hget 0 (Nat.zero_le j)]
      rfl
    · intro k hk
      rw [hfin, hget k (by omega)]

theorem objective_trace_witness :
    (1 ≤ (mkTotalVariation 1 2 [1, -1] 1 1 false true).length ∧
      (mkTotalVariation 1 2 [1, -1] 1 1 false true).length ≤ 2 ∧
      (mkTotalVariation 1 2 [1, -1] 1 1 false true).length ≤ 2) ∧
    ((mkTotalVariation 1 2 [1, -1] 1 1 false true).extended_output = true →
      (finalState (mkTotalVariation 1 2 [1, -1] 1 1 false true) 2 2 (fun p => (p : ℚ))).obj.length
          = 1 + itersExecuted (mkTotalVariation 1 2 [1, -1] 1 1 false true) 2 2 (fun p => (p : ℚ)) ∧
      (finalState (mkTotalVariation 1 2 [1, -1] 1 1 false true) 2 2 (fun p => (p : ℚ))).obj.getD 0 0
          = objective [1, -1] 1 1 2 2 (fun p => (p : ℚ)) (fun p => (p : ℚ)) ∧
      ∀ k ≤ itersExecuted (mkTotalVariation 1 2 [1, -1] 1 1 false true) 2 2 (fun p => (p : ℚ)),
        (finalState (mkTotalVariation 1 2 [1, -1] 1 1 false true) 2 2 (fun p => (p : ℚ))).obj.getD k 0
          = objective [1, -1] 1 1 2 2
              (((stepState (mkTotalVariation 1 2 [1, -1] 1 1 false true) 2 2 (fun p => (p : ℚ)))^[k]
                (initState (mkTotalVariation 1 2 [1, -1] 1 1 false true) 2 2 (fun p => (p : ℚ)))).res)
              (fun p => (p : ℚ))) :=
  ⟨⟨by norm_num [mkTotalVariation], by norm_num [mkTotalVariation], by norm_num [mkTotalVariation]⟩,
    (objective_trace (mkTotalVariation 1 2 [1, -1] 1 1 false true) 2 2 (fun p => (p : ℚ))
      (by norm_num [mkTotalVariation])).2.2⟩

/-- C9: `transform` initializes the primal iterate as an exact copy of `X`
    with no clamping (even in saturation mode), sets the TV block of the
    dual to `clip(sigma_tv * D(X), -1, 1)` computed from that unclamped
    copy (the configuration, hence the `saturation` flag, is arbitrary
    here), and initializes the data-fidelity dual block to zero. -/
theorem initialization_spec (cfg : Config) (h w : ℕ) (X : ℕ → ℚ) :
    (initState cfg h w X).res = X ∧
    (∀ m, m < tvLen cfg.length h w →
      (initState cfg h w X).dual m =
        clip (-1) 1 (sigma cfg.coef cfg.length cfg.lambd h w m *
          tvEnt cfg.coef cfg.length h w X m)) ∧
    (∀ p, (initState cfg h w X).dual (tvLen cfg.length h w + p) = 0) :=
  ⟨rfl, fun m hm => if_pos hm, fun p => if_neg (by omega)⟩

/-! ## C1: the adjoint identity -/

/-- Closed form of the zero-insertion loop of `_transposed_tv`: after `k`
    insertion passes with strides `s0, s0+1, …, s0+k-1`, position `m` of the
    array holds the original entry of its `(s0+k)`-strided row when its
    in-row offset is `< s0`, and an inserted zero otherwise. -/
theorem v0_loop_closed (h s0 : ℕ) (h1 : 1 ≤ h) (hs : 1 ≤ s0) (v : ℕ → ℚ) :
    ∀ (k m : ℕ), m < h * s0 + (h - 1) * k →
      (List.range k).foldl (fun g i => v0Ins (s0 + i) h g) v m =
        if m % (s0 + k) < s0 then v (m / (s0 + k) * s0 + m % (s0 + k)) else 0 := by
  intro k
  induction k with
  | zero =>
    intro m _
    rw [List.range_zero, List.foldl_nil, add_zero, if_pos (Nat.mod_lt m hs),
      Nat.div_add_mod']
  | succ k ih =>
    intro m hm
    rw [List.range_succ, List.foldl_append, List.foldl_cons, List.foldl_nil]
    set s := s0 + k with hs_def
    have hsk1 : s0 + (k + 1) = s + 1 := by omega
    rw [hsk1]
    simp only [v0Ins]
    have hmul1 : (h - 1) * (s + 1) = (h - 1) * s + (h - 1) := Nat.mul_succ _ _
    have hmul2 : h * s0 + (h - 1) * (k + 1) = h * s0 + (h - 1) * k + (h - 1) := by
      rw [Nat.mul_succ]; omega
    have hmul3 : h * s0 + (h - 1) * k = (h - 1) * s + s0 := by
      have e1 : (h - 1) * s = (h - 1) * s0 + (h - 1) * k := by rw [hs_def, Nat.mul_add]
      have e2 : (h - 1) * s0 + s0 = h * s0 := by
        have e3 : (h - 1 + 1) * s0 = (h - 1) * s0 + s0 := Nat.succ_mul _ _
        rw [show h - 1 + 1 = h by omega] at e3
        omega
      omega
    by_cases hcase : m < (h - 1) * (s + 1)
    · rw [if_pos hcase]
      set q := m / (s + 1) with hq_def
      set t := m % (s + 1) with ht_def
      have hts : t < s + 1 := Nat.mod_lt m (by omega)
      by_cases ht : t < s
      · rw [if_pos ht]
        have hq : q < h - 1 := (Nat.div_lt_iff_lt_mul (by omega)).mpr hcase
        have harg : q * s + t < h * s0 + (h - 1) * k := by
          have e1 : q * s + t < (q + 1) * s := by
            rw [Nat.succ_mul]; omega
          have e2 : (q + 1) * s ≤ (h - 1) * s := Nat.mul_le_mul_right s (by omega)
          have e3 : (h - 1) * s ≤ (h - 1) * s + s0 := by omega
          omega
        rw [ih (q * s + t) harg, mul_add_div_eq q t s ht, mul_add_mod_eq q t s ht]
      · have hteq : t = s := by omega
        rw [if_neg ht, if_neg (by omega : ¬ t < s0)]
    · rw [if_neg hcase]
      set x := m - (h - 1) with hx_def
      have hx1 : x < h * s0 + (h - 1) * k := by omega
      have hx2 : (h - 1) * s ≤ x := by omega
      set t' := x - (h - 1) * s with ht'_def
      have ht' : t' < s0 := by omega
      have hxe : x = (h - 1) * s + t' := by omega
      have hs0s : s0 ≤ s := by omega
      rw [ih x hx1, hxe, mul_add_div_eq (h - 1) t' s (by omega),
        mul_add_mod_eq (h - 1) t' s (by omega), if_pos ht']
      have hme : m = (h - 1) * (s + 1) + t' := by omega
      rw [hme, mul_add_div_eq (h - 1) t' (s + 1) (by omega),
        mul_add_mod_eq (h - 1) t' (s + 1) (by omega), if_pos ht']

/-- Closed form of `v0` in `_transposed_tv`: within its `h*w - L` valid
    positions, position `m` (at row `m / w`, column `m % w` of the
    re-padded layout) holds `v[(m/w)*(w-L) + m%w]` when `m % w < w - L`
    and an inserted zero otherwise. -/
theorem v0Fun_closed (L h w : ℕ) (hL : 1 ≤ L) (hLw : L < w) (h1 : 1 ≤ h) (v : ℕ → ℚ)
    (m : ℕ) (hm : m < h * w - L) :
    v0Fun L h w v m = if m % w < w - L then v (m / w * (w - L) + m % w) else 0 := by
  have hsplit : h * w - L = h * (w - L) + (h - 1) * L := by
    zify [le_of_lt hLw, h1, le_trans (le_of_lt hLw) (Nat.le_mul_of_pos_left w h1)]
    ring
  have hw0 : w - L + L = w := Nat.sub_add_cancel (le_of_lt hLw)
  rw [v0Fun, v0_loop_closed h (w - L) h1 (by omega) _ L m (by omega), hw0]
  by_cases hc : m % w < w - L
  · rw [if_pos hc, if_pos hc, if_pos]
    have hdiv : m / w ≤ h - 1 := by
      have : m / w < h := (Nat.div_lt_iff_lt_mul (by omega)).mpr (by
        have : m < h * w := by omega
        omega)
      omega
    calc m / w * (w - L) + m % w < m / w * (w - L) + (w - L) := by omega
      _ = (m / w + 1) * (w - L) := by rw [Nat.succ_mul]
      _ ≤ h * (w - L) := Nat.mul_le_mul_right _ (by omega)
  · rw [if_neg hc, if_neg hc]

/-- Positions of the re-padded `v0` layout beyond `h*w - L` (the last `L`
    cells of the bottom row) have in-row offset `≥ w - L`. -/
theorem tail_mod_ge (L h w m : ℕ) (h1 : 1 ≤ h) (hLw : L < w)
    (hm1 : h * w - L ≤ m) (hm2 : m < h * w) : ¬ m % w < w - L := by
  have hsum : (h - 1) * w + w = h * w := by
    have e : (h - 1 + 1) * w = (h - 1) * w + w := Nat.succ_mul _ _
    rw [show h - 1 + 1 = h by omega] at e
    omega
  have hle : (h - 1) * w ≤ m := by omega
  have hlt : m - (h - 1) * w < w := by omega
  have hmod : m % w = m - (h - 1) * w := by
    have := mul_add_mod_eq (h - 1) (m - (h - 1) * w) w hlt
    rw [Nat.add_sub_cancel' hle] at this
    exact this
  omega

/-- `⟨D u, v⟩` as a double sum over rows and columns of the two blocks. -/
theorem tv_sum_split (c : List ℚ) (L h w : ℕ) (hk : c.length = L + 1)
    (hh : L < h) (hw : L < w) (u v : ℕ → ℚ) :
    ∑ m ∈ Finset.range (tvLen L h w), tvEnt c L h w u m * v m =
      (∑ a ∈ Finset.range h, ∑ b ∈ Finset.range (w - L), ∑ i ∈ Finset.range c.length,
        coefAt c i * u (a * w + b + i) * v (a * (w - L) + b)) +
      (∑ a ∈ Finset.range (h - L), ∑ b ∈ Finset.range w, ∑ i ∈ Finset.range c.length,
        coefAt c i * u ((a + i) * w + b) * v (h * (w - L) + (a * w + b))) := by
  rw [tvLen, Finset.sum_range_add]
  congr 1
  · rw [sum_range_mul_eq h (w - L)]
    refine Finset.sum_congr rfl (fun a ha => ?_)
    refine Finset.sum_congr rfl (fun b hb => ?_)
    have hb' : b < w - L := Finset.mem_range.mp hb
    have ha' : a < h := Finset.mem_range.mp ha
    have hlt : a * (w - L) + b < h * (w - L) := by
      calc a * (w - L) + b < a * (w - L) + (w - L) := by omega
        _ = (a + 1) * (w - L) := (Nat.succ_mul a (w - L)).symm
        _ ≤ h * (w - L) := Nat.mul_le_mul_right _ (by omega)
    rw [tvEnt, if_pos hlt, mul_add_div_eq a b _ hb', mul_add_mod_eq a b _ hb',
      Finset.sum_mul]
    exact Finset.sum_congr rfl (fun i _ => by rw [Nat.add_assoc])
  · rw [show w * (h - L) = (h - L) * w from Nat.mul_comm w (h - L),
      sum_range_mul_eq (h - L) w]
    refine Finset.sum_congr rfl (fun a ha => ?_)
    refine Finset.sum_congr rfl (fun b hb => ?_)
    have hb' : b < w := Finset.mem_range.mp hb
    rw [tvEnt, if_neg (by omega), Nat.add_sub_cancel_left,
      mul_add_div_eq a b w hb', mul_add_mod_eq a b w hb', Finset.sum_mul]

/-- `⟨u, Dᵗ v⟩` as the same double sums. -/
theorem ttv_sum_split (c : List ℚ) (L h w : ℕ) (hk : c.length = L + 1) (hL : 1 ≤ L)
    (hh : L < h) (hw : L < w) (u v : ℕ → ℚ) :
    ∑ p ∈ Finset.range (h * w), u p * transposed_tv c L h w v p =
      (∑ a ∈ Finset.range h, ∑ b ∈ Finset.range (w - L), ∑ i ∈ Finset.range c.length,
        coefAt c i * u (a * w + b + i) * v (a * (w - L) + b)) +
      (∑ a ∈ Finset.range (h - L), ∑ b ∈ Finset.range w, ∑ i ∈ Finset.range c.length,
        coefAt c i * u ((a + i) * w + b) * v (h * (w - L) + (a * w + b))) := by
  have h1 : 1 ≤ h := by omega
  have w1 : 1 ≤ w := by omega
  have hLhw : L ≤ h * w := le_trans (le_of_lt hh) (Nat.le_mul_of_pos_right h (by omega))
  -- the horizontal contribution of coefficient i, reduced to a double sum
  have hHi : ∀ i, i < c.length →
      (∑ p ∈ Finset.range (h * w),
          u p * (if i ≤ p ∧ p - i < h * w - L then v0Fun L h w v (p - i) else 0)) =
        ∑ a ∈ Finset.range h, ∑ b ∈ Finset.range (w - L),
          u (a * w + b + i) * v (a * (w - L) + b) := by
    intro i hi
    have hiL : i ≤ L := by omega
    have e1 : (∑ p ∈ Finset.range (h * w),
        u p * (if i ≤ p ∧ p - i < h * w - L then v0Fun L h w v (p - i) else 0)) =
        ∑ p ∈ Finset.range (h * w),
          (if i ≤ p ∧ p - i < h * w - L then u (p - i + i) * v0Fun L h w v (p - i) else 0) := by
      refine Finset.sum_congr rfl (fun p _ => ?_)
      by_cases hc : i ≤ p ∧ p - i < h * w - L
      · rw [if_pos hc, if_pos hc, Nat.sub_add_cancel hc.1]
      · rw [if_neg hc, if_neg hc, mul_zero]
    rw [e1, sum_window_shift (h * w) (h * w - L) i
      (fun m => u (m + i) * v0Fun L h w v m) (by omega)]
    have e2 : (∑ m ∈ Finset.range (h * w - L), u (m + i) * v0Fun L h w v m) =
        ∑ m ∈ Finset.range (h * w - L),
          u (m + i) * (if m % w < w - L then v (m / w * (w - L) + m % w) else 0) := by
      refine Finset.sum_congr rfl (fun m hm => ?_)
      rw [v0Fun_closed L h w hL hw h1 v m (Finset.mem_range.mp hm)]
    rw [e2]
    have e3 : (∑ m ∈ Finset.range (h * w - L),
        u (m + i) * (if m % w < w - L then v (m / w * (w - L) + m % w) else 0)) =
        ∑ m ∈ Finset.range (h * w),
          u (m + i) * (if m % w < w - L then v (m / w * (w - L) + m % w) else 0) := by
      refine Finset.sum_subset (Finset.range_subset.mpr (by omega)) (fun m hmt hms => ?_)
      rw [if_neg (tail_mod_ge L h w m h1 hw (by simpa using hms)
        (Finset.mem_range.mp hmt)), mul_zero]
    rw [e3, sum_range_mul_eq h w]
    refine Finset.sum_congr rfl (fun a ha => ?_)
    have e4 : (∑ b ∈ Finset.range w,
        u (a * w + b + i) * (if (a * w + b) % w < w - L
          then v ((a * w + b) / w * (w - L) + (a * w + b) % w) else 0)) =
        ∑ b ∈ Finset.range w,
          (if b < w - L then u (a * w + b + i) * v (a * (w - L) + b) else 0) := by
      refine Finset.sum_congr rfl (fun b hb => ?_)
      have hb' : b < w := Finset.mem_range.mp hb
      rw [mul_add_div_eq a b w hb', mul_add_mod_eq a b w hb', mul_ite, mul_zero]
    rw [e4, sum_range_if_lt w (w - L) _ (by omega)]
  -- the vertical contribution of coefficient i, reduced to a double sum
  have hVi : ∀ i, i < c.length →
      (∑ p ∈ Finset.range (h * w),
          u p * (if w * i ≤ p ∧ p - w * i < w * (h - L)
            then v (h * (w - L) + (p - w * i)) else 0)) =
        ∑ a ∈ Finset.range (h - L), ∑ b ∈ Finset.range w,
          u ((a + i) * w + b) * v (h * (w - L) + (a * w + b)) := by
    intro i hi
    have hiL : i ≤ L := by omega
    have hwin : w * i + w * (h - L) ≤ h * w := by
      calc w * i + w * (h - L) ≤ w * L + w * (h - L) :=
          Nat.add_le_add_right (Nat.mul_le_mul_left w hiL) _
        _ = w * (L + (h - L)) := (Nat.mul_add w L (h - L)).symm
        _ = h * w := by rw [Nat.add_sub_cancel' (le_of_lt hh), Nat.mul_comm]
    have e1 : (∑ p ∈ Finset.range (h * w),
        u p * (if w * i ≤ p ∧ p - w * i < w * (h - L)
          then v (h * (w - L) + (p - w * i)) else 0)) =
        ∑ p ∈ Finset.range (h * w),
          (if w * i ≤ p ∧ p - w * i < w * (h - L)
            then u (p - w * i + w * i) * v (h * (w - L) + (p - w * i)) else 0) := by
      refine Finset.sum_congr rfl (fun p _ => ?_)
      by_cases hc : w * i ≤ p ∧ p - w * i < w * (h - L)
      · rw [if_pos hc, if_pos hc, Nat.sub_add_cancel hc.1]
      · rw [if_neg hc, if_neg hc, mul_zero]
    rw [e1, sum_window_shift (h * w) (w * (h - L)) (w * i)
      (fun m => u (m + w * i) * v (h * (w - L) + m)) hwin,
      show w * (h - L) = (h - L) * w from Nat.mul_comm w (h - L),
      sum_range_mul_eq (h - L) w]
    refine Finset.sum_congr rfl (fun a ha => ?_)
    refine Finset.sum_congr rfl (fun b hb => ?_)
    rw [show a * w + b + w * i = (a + i) * w + b by ring]
  -- assemble
  have hpt : ∀ p, u p * transposed_tv c L h w v p =
      ∑ i ∈ Finset.range c.length,
        (coefAt c i *
            (u p * (if i ≤ p ∧ p - i < h * w - L then v0Fun L h w v (p - i) else 0)) +
         coefAt c i *
            (u p * (if w * i ≤ p ∧ p - w * i < w * (h - L)
              then v (h * (w - L) + (p - w * i)) else 0))) := by
    intro p
    rw [transposed_tv, Finset.mul_sum]
    exact Finset.sum_congr rfl (fun i _ => by ring)
  calc ∑ p ∈ Finset.range (h * w), u p * transposed_tv c L h w v p
      = ∑ p ∈ Finset.range (h * w), ∑ i ∈ Finset.range c.length,
          (coefAt c i *
              (u p * (if i ≤ p ∧ p - i < h * w - L then v0Fun L h w v (p - i) else 0)) +
           coefAt c i *
              (u p * (if w * i ≤ p ∧ p - w * i < w * (h - L)
                then v (h * (w - L) + (p - w * i)) else 0))) :=
        Finset.sum_congr rfl (fun p _ => hpt p)
    _ = ∑ i ∈ Finset.range c.length,
          (coefAt c i * ∑ p ∈ Finset.range (h * w),
              u p * (if i ≤ p ∧ p - i < h * w - L then v0Fun L h w v (p - i) else 0)) +
        ∑ i ∈ Finset.range c.length,
          (coefAt c i * ∑ p ∈ Finset.range (h * w),
              u p * (if w * i ≤ p ∧ p - w * i < w * (h - L)
                then v (h * (w - L) + (p - w * i)) else 0)) := by
        rw [Finset.sum_comm, ← Finset.sum_add_distrib]
        refine Finset.sum_congr rfl (fun i _ => ?_)
        rw [Finset.sum_add_distrib, Finset.mul_sum, Finset.mul_sum]
    _ = (∑ i ∈ Finset.range c.length, coefAt c i *
            ∑ a ∈ Finset.range h, ∑ b ∈ Finset.range (w - L),
              u (a * w + b + i) * v (a * (w - L) + b)) +
        ∑ i ∈ Finset.range c.length, coefAt c i *
            ∑ a ∈ Finset.range (h - L), ∑ b ∈ Finset.range w,
              u ((a + i) * w + b) * v (h * (w - L) + (a * w + b)) := by
        congr 1
        · exact Finset.sum_congr rfl (fun i hi => by
            rw [hHi i (Finset.mem_range.mp hi)])
        · exact Finset.sum_congr rfl (fun i hi => by
            rw [hVi i (Finset.mem_range.mp hi)])
    _ = (∑ a ∈ Finset.range h, ∑ b ∈ Finset.range (w - L), ∑ i ∈ Finset.range c.length,
          coefAt c i * u (a * w + b + i) * v (a * (w - L) + b)) +
        ∑ a ∈ Finset.range (h - L), ∑ b ∈ Finset.range w, ∑ i ∈ Finset.range c.length,
          coefAt c i * u ((a + i) * w + b) * v (h * (w - L) + (a * w + b)) := by
        congr 1
        · have e : ∀ i ∈ Finset.range c.length, coefAt c i *
              (∑ a ∈ Finset.range h, ∑ b ∈ Finset.range (w - L),
                u (a * w + b + i) * v (a * (w - L) + b)) =
              ∑ a ∈ Finset.range h, ∑ b ∈ Finset.range (w - L),
                coefAt c i * u (a * w + b + i) * v (a * (w - L) + b) := by
            intro i _
            rw [Finset.mul_sum]
            refine Finset.sum_congr rfl (fun a _ => ?_)
            rw [Finset.mul_sum]
            exact Finset.sum_congr rfl (fun b _ => by ring)
          rw [Finset.sum_congr rfl e, Finset.sum_comm]
          refine Finset.sum_congr rfl (fun a _ => ?_)
          rw [Finset.sum_comm]
        · have e : ∀ i ∈ Finset.range c.length, coefAt c i *
              (∑ a ∈ Finset.range (h - L), ∑ b ∈ Finset.range w,
                u ((a + i) * w + b) * v (h * (w - L) + (a * w + b))) =
              ∑ a ∈ Finset.range (h - L), ∑ b ∈ Finset.range w,
                coefAt c i * u ((a + i) * w + b) * v (h * (w - L) + (a * w + b)) := by
            intro i _
            rw [Finset.mul_sum]
            refine Finset.sum_congr rfl (fun a _ => ?_)
            rw [Finset.mul_sum]
            exact Finset.sum_congr rfl (fun b _ => by ring)
          rw [Finset.sum_congr rfl e, Finset.sum_comm]
          refine Finset.sum_congr rfl (fun a _ => ?_)
          rw [Finset.sum_comm]

/-- C1: for every coefficient vector of length `k ≥ 2` (so
    `length = k - 1 ≥ 1`), every shape with `h > length` and `w > length`,
    every image `u`, and every dual vector `v` of the difference-vector
    layout, `⟨D(u), v⟩ = ⟨u, Dᵗ(v)⟩` exactly, where `D = _tv` and
    `Dᵗ = _transposed_tv`. -/
theorem tv_adjoint (c : List ℚ) (h w : ℕ) (hc : 2 ≤ c.length)
    (hh : c.length - 1 < h) (hw : c.length - 1 < w) (u v : ℕ → ℚ) :
    ∑ m ∈ Finset.range (tvLen (c.length - 1) h w), tvEnt c (c.length - 1) h w u m * v m =
      ∑ p ∈ Finset.range (h * w), u p * transposed_tv c (c.length - 1) h w v p := by
  rw [tv_sum_split c (c.length - 1) h w (by omega) hh hw u v,
    ttv_sum_split c (c.length - 1) h w (by omega) (by omega) hh hw u v]

theorem tv_adjoint_witness :
    (2 ≤ ([2, -3, 1] : List ℚ).length ∧
      ([2, -3, 1] : List ℚ).length - 1 < 3 ∧ ([2, -3, 1] : List ℚ).length - 1 < 4) ∧
    ∑ m ∈ Finset.range (tvLen (([2, -3, 1] : List ℚ).length - 1) 3 4),
        tvEnt [2, -3, 1] (([2, -3, 1] : List ℚ).length - 1) 3 4
          (fun p => ((p * p % 7 : ℕ) : ℚ)) m * (((m * 3 % 5 : ℕ) : ℚ) - 2) =
      ∑ p ∈ Finset.range (3 * 4),
        ((p * p % 7 : ℕ) : ℚ) * transposed_tv [2, -3, 1] (([2, -3, 1] : List ℚ).length - 1) 3 4
          (fun m => ((m * 3 % 5 : ℕ) : ℚ) - 2) p :=
  ⟨⟨by norm_num, by norm_num, by norm_num⟩,
    tv_adjoint [2, -3, 1] 3 4 (by norm_num) (by norm_num) (by norm_num)
      (fun p => ((p * p % 7 : ℕ) : ℚ)) (fun m => ((m * 3 % 5 : ℕ) : ℚ) - 2)⟩

/-! ## Faithfulness of the squared stopping test -/

theorem stop_aux (t e A B : ℝ) (ht : 0 < t) (he : 0 < e) (hB : 0 ≤ B) :
    (A - t ^ 2 * B - t ^ 2 * e ^ 2 < 0 ∨
      (A - t ^ 2 * B - t ^ 2 * e ^ 2) ^ 2 < 4 * t ^ 4 * e ^ 2 * B) ↔
      Real.sqrt A / (Real.sqrt B + e) < t := by
  have hsb : (0 : ℝ) ≤ Real.sqrt B := Real.sqrt_nonneg _
  have hden : (0 : ℝ) < Real.sqrt B + e := by linarith
  have hs2 : Real.sqrt B ^ 2 = B := Real.sq_sqrt hB
  have hexp : (t * (Real.sqrt B + e)) ^ 2 =
      t ^ 2 * B + 2 * t ^ 2 * e * Real.sqrt B + t ^ 2 * e ^ 2 := by
    rw [show (t * (Real.sqrt B + e)) ^ 2 =
      t ^ 2 * Real.sqrt B ^ 2 + 2 * t ^ 2 * e * Real.sqrt B + t ^ 2 * e ^ 2 from by ring, hs2]
  have hKb : (0 : ℝ) ≤ 2 * t ^ 2 * e * Real.sqrt B := by positivity
  rw [div_lt_iff₀ hden, Real.sqrt_lt' (by positivity), hexp]
  constructor
  · rintro (h1 | h2)
    · linarith
    · by_cases hd : A - t ^ 2 * B - t ^ 2 * e ^ 2 < 0
      · linarith
      · push_neg at hd
        have hsq : (2 * t ^ 2 * e * Real.sqrt B) ^ 2 = 4 * t ^ 4 * e ^ 2 * B := by
          rw [show (2 * t ^ 2 * e * Real.sqrt B) ^ 2 =
            4 * t ^ 4 * e ^ 2 * Real.sqrt B ^ 2 from by ring, hs2]
        have hlt : A - t ^ 2 * B - t ^ 2 * e ^ 2 < 2 * t ^ 2 * e * Real.sqrt B :=
          lt_of_pow_lt_pow_left₀ 2 hKb (by rw [hsq]; exact h2)
        linarith
  · intro hR
    by_cases hd : A - t ^ 2 * B - t ^ 2 * e ^ 2 < 0
    · exact Or.inl hd
    · push_neg at hd
      refine Or.inr ?_
      have hdK : A - t ^ 2 * B - t ^ 2 * e ^ 2 < 2 * t ^ 2 * e * Real.sqrt B := by linarith
      have h2 : (A - t ^ 2 * B - t ^ 2 * e ^ 2) ^ 2 < (2 * t ^ 2 * e * Real.sqrt B) ^ 2 :=
        pow_lt_pow_left₀ hdK hd (by norm_num)
      have hsq : (2 * t ^ 2 * e * Real.sqrt B) ^ 2 = 4 * t ^ 4 * e ^ 2 * B := by
        rw [show (2 * t ^ 2 * e * Real.sqrt B) ^ 2 =
          4 * t ^ 4 * e ^ 2 * Real.sqrt B ^ 2 from by ring, hs2]
      linarith

/-- The `ℚ`-decidable stopping predicate used in `runLoop` is exactly the
    code's test `norm(diff) / (norm(res) + eps) < tol` (with `a = ‖diff‖²`,
    `b = ‖res‖²`) whenever `tol` and `eps` are positive, as in any sensible
    configuration. -/
theorem stopCond_iff_sqrt (tol eps a b : ℚ) (ht : 0 < tol) (he : 0 < eps) (hb : 0 ≤ b) :
    stopCond tol eps a b ↔
      Real.sqrt (a : ℝ) / (Real.sqrt (b : ℝ) + (eps : ℝ)) < (tol : ℝ) := by
  have hcast : stopCond tol eps a b ↔
      ((a : ℝ) - (tol : ℝ) ^ 2 * (b : ℝ) - (tol : ℝ) ^ 2 * (eps : ℝ) ^ 2 < 0 ∨
        ((a : ℝ) - (tol : ℝ) ^ 2 * (b : ℝ) - (tol : ℝ) ^ 2 * (eps : ℝ) ^ 2) ^ 2 <
          4 * (tol : ℝ) ^ 4 * (eps : ℝ) ^ 2 * (b : ℝ)) := by
    rw [stopCond]
    constructor
    · rintro (h1 | h2)
      · exact Or.inl (by exact_mod_cast h1)
      · exact Or.inr (by exact_mod_cast h2)
    · rintro (h1 | h2)
      · exact Or.inl (by exact_mod_cast h1)
      · exact Or.inr (by exact_mod_cast h2)
  rw [hcast, stop_aux _ _ _ _ (by exact_mod_cast ht) (by exact_mod_cast he)
    (by exact_mod_cast hb)]

/-! ## C2: the diagonal preconditioner -/

/-- Collapse of `∑ i, c i * [x0 + i = p]`: the offsets `x0 + i` are distinct,
    so at most one stencil tap hits position `p`. -/
theorem sum_coef_shift_indicator (c : List ℚ) (x0 p : ℕ) :
    (∑ i ∈ Finset.range c.length, coefAt c i * (if x0 + i = p then 1 else 0)) =
      if x0 ≤ p ∧ p - x0 < c.length then coefAt c (p - x0) else 0 := by
  by_cases hle : x0 ≤ p
  · have e : ∀ i ∈ Finset.range c.length,
        coefAt c i * (if x0 + i = p then (1 : ℚ) else 0) =
          if i = p - x0 then coefAt c i else 0 := by
      intro i _
      by_cases hip : x0 + i = p
      · rw [if_pos hip, if_pos (by omega), mul_one]
      · rw [if_neg hip, if_neg (by omega), mul_zero]
    rw [Finset.sum_congr rfl e, Finset.sum_ite_eq' (Finset.range c.length) (p - x0) (coefAt c)]
    by_cases hdk : p - x0 < c.length
    · rw [if_pos (Finset.mem_range.mpr hdk), if_pos ⟨hle, hdk⟩]
    · rw [if_neg (fun hmem => hdk (Finset.mem_range.mp hmem)),
        if_neg (fun hcon => hdk hcon.2)]
  · rw [if_neg (fun hcon => hle hcon.1)]
    refine Finset.sum_eq_zero (fun i _ => ?_)
    rw [if_neg (by omega), mul_zero]

/-- Reflection `a ↦ P - a` between the two ways of enumerating the stencil
    taps that cover position `P`. -/
theorem sum_refl_window (f : ℕ → ℚ) (A k P : ℕ) :
    (∑ a ∈ Finset.range A, if a ≤ P ∧ P - a < k then f (P - a) else 0) =
      ∑ i ∈ Finset.range k, if i ≤ P ∧ P - i < A then f i else 0 := by
  rw [← Finset.sum_filter, ← Finset.sum_filter]
  refine Finset.sum_bij' (fun a _ => P - a) (fun i _ => P - i) ?_ ?_ ?_ ?_ ?_
  · intro a ha
    simp only [Finset.mem_filter, Finset.mem_range] at ha ⊢
    omega
  · intro i hi
    simp only [Finset.mem_filter, Finset.mem_range] at hi ⊢
    omega
  · intro a ha
    simp only [Finset.mem_filter, Finset.mem_range] at ha
    show P - (P - a) = a
    omega
  · intro i hi
    simp only [Finset.mem_filter, Finset.mem_range] at hi
    show P - (P - i) = i
    omega
  · intro a _
    rfl

/-- The vertical-slice condition of `_step_size` (`tau[w*i : w*i + w*(h-L)]`)
    holds at pixel `p` exactly when the `i`-th tap of some vertical
    difference row lands on `p`'s image row. -/
theorem vert_cond_iff (h w L i p : ℕ) (w0 : 0 < w) :
    (w * i ≤ p ∧ p - w * i < w * (h - L)) ↔ (i ≤ p / w ∧ p / w - i < h - L) := by
  have hpdm : p / w * w + p % w = p := Nat.div_add_mod' p w
  have hrw : p % w < w := Nat.mod_lt p w0
  have hcomm : w * (p / w) = p / w * w := Nat.mul_comm _ _
  have h1 : w * i ≤ p ↔ i ≤ p / w := by
    constructor
    · intro hle
      by_contra hcon
      push_neg at hcon
      have e1 : w * (p / w + 1) ≤ w * i := Nat.mul_le_mul_left w hcon
      have e2 : w * (p / w + 1) = w * (p / w) + w := Nat.mul_succ w _
      omega
    · intro hle
      have e1 : w * i ≤ w * (p / w) := Nat.mul_le_mul_left w hle
      omega
  have h2 : i ≤ p / w → (p - w * i < w * (h - L) ↔ p / w - i < h - L) := by
    intro hiP
    have e1 : (p / w - i) * w = p / w * w - i * w := Nat.sub_mul _ _ _
    have e2 : i * w ≤ p / w * w := Nat.mul_le_mul_right w hiP
    have e3 : w * i = i * w := Nat.mul_comm w i
    have e4 : p - w * i = (p / w - i) * w + p % w := by omega
    have e7 : w * (h - L) = (h - L) * w := Nat.mul_comm _ _
    constructor
    · intro hlt
      by_contra hcon
      push_neg at hcon
      have e5 : (h - L) * w ≤ (p / w - i) * w := Nat.mul_le_mul_right w hcon
      omega
    · intro hlt
      have e5 : (p / w - i + 1) * w ≤ (h - L) * w := Nat.mul_le_mul_right w (by omega)
      have e6 : (p / w - i + 1) * w = (p / w - i) * w + w := Nat.succ_mul _ _
      omega
  constructor
  · rintro ⟨ha, hb⟩
    exact ⟨h1.mp ha, (h2 (h1.mp ha)).mp hb⟩
  · rintro ⟨ha, hb⟩
    exact ⟨h1.mpr ha, (h2 ha).mpr hb⟩

/-- Column absolute sums of the horizontal block of `D` at pixel `p`: they
    equal the tiled contribution `tile[p % w]` accumulated by `_step_size`. -/
theorem tv_delta_abs_sum_h (c : List ℚ) (L h w : ℕ) (hk : c.length = L + 1)
    (hh : L < h) (hw : L < w) (p : ℕ) (hp : p < h * w) :
    (∑ m ∈ Finset.range (h * (w - L)),
        |tvEnt c L h w (fun x => if x = p then 1 else 0) m|) =
      ∑ i ∈ Finset.range (w - L),
        if i ≤ p % w ∧ p % w ≤ i + L then |coefAt c (p % w - i)| else 0 := by
  have w0 : 0 < w := by omega
  have hrw : p % w < w := Nat.mod_lt p w0
  have hPh : p / w < h := (Nat.div_lt_iff_lt_mul w0).mpr (by omega)
  have hpdm : p / w * w + p % w = p := Nat.div_add_mod' p w
  rw [sum_range_mul_eq h (w - L)]
  have hpt : ∀ a, a < h → ∀ b, b < w - L →
      |tvEnt c L h w (fun x => if x = p then 1 else 0) (a * (w - L) + b)| =
        if a * w + b ≤ p ∧ p - (a * w + b) < c.length
        then |coefAt c (p - (a * w + b))| else 0 := by
    intro a ha b hb
    have hlt : a * (w - L) + b < h * (w - L) := by
      calc a * (w - L) + b < a * (w - L) + (w - L) := by omega
        _ = (a + 1) * (w - L) := (Nat.succ_mul a (w - L)).symm
        _ ≤ h * (w - L) := Nat.mul_le_mul_right _ (by omega)
    rw [tvEnt, if_pos hlt, mul_add_div_eq a b _ hb, mul_add_mod_eq a b _ hb]
    have e : ∀ i ∈ Finset.range c.length,
        coefAt c i * (if a * w + (b + i) = p then (1 : ℚ) else 0) =
          coefAt c i * (if (a * w + b) + i = p then 1 else 0) := by
      intro i _
      rw [Nat.add_assoc]
    rw [Finset.sum_congr rfl e, sum_coef_shift_indicator c (a * w + b) p,
      apply_ite abs, abs_zero]
  have hcongr : (∑ a ∈ Finset.range h, ∑ b ∈ Finset.range (w - L),
      |tvEnt c L h w (fun x => if x = p then 1 else 0) (a * (w - L) + b)|) =
      ∑ a ∈ Finset.range h, ∑ b ∈ Finset.range (w - L),
        (if a * w + b ≤ p ∧ p - (a * w + b) < c.length
          then |coefAt c (p - (a * w + b))| else 0) := by
    refine Finset.sum_congr rfl (fun a ha => Finset.sum_congr rfl (fun b hb => ?_))
    exact hpt a (Finset.mem_range.mp ha) b (Finset.mem_range.mp hb)
  rw [hcongr, Finset.sum_eq_single_of_mem (p / w) (Finset.mem_range.mpr hPh)
    (fun a _ hane => Finset.sum_eq_zero (fun b hb => ?_))]
  · refine Finset.sum_congr rfl (fun b hb => ?_)
    have hb' : b < w - L := Finset.mem_range.mp hb
    by_cases hcond : b ≤ p % w ∧ p % w ≤ b + L
    · have h1 : p / w * w + b ≤ p := by omega
      have h2 : p - (p / w * w + b) < c.length := by omega
      have h3 : p - (p / w * w + b) = p % w - b := by omega
      rw [if_pos ⟨h1, h2⟩, if_pos hcond, h3]
    · rw [if_neg (fun hcon => hcond (by omega)), if_neg hcond]
  · have hb' : b < w - L := Finset.mem_range.mp hb
    rw [if_neg]
    rintro ⟨h1, h2⟩
    have hbound : p - a * w < w := by omega
    have : p / w = a := by
      have e := mul_add_div_eq a (p - a * w) w hbound
      rw [Nat.add_sub_cancel' (le_trans (Nat.le_add_right _ b) h1)] at e
      exact e
    exact hane this.symm

/-- Column absolute sums of the vertical block of `D` at pixel `p`: they
    equal the per-coefficient slice contribution of `_step_size`. -/
theorem tv_delta_abs_sum_v (c : List ℚ) (L h w : ℕ) (hk : c.length = L + 1)
    (hh : L < h) (hw : L < w) (p : ℕ) (hp : p < h * w) :
    (∑ m ∈ Finset.range (w * (h - L)),
        |tvEnt c L h w (fun x => if x = p then 1 else 0) (h * (w - L) + m)|) =
      ∑ i ∈ Finset.range c.length,
        if w * i ≤ p ∧ p - w * i < w * (h - L) then |coefAt c i| else 0 := by
  have w0 : 0 < w := by omega
  have hrw : p % w < w := Nat.mod_lt p w0
  have hpdm : p / w * w + p % w = p := Nat.div_add_mod' p w
  conv_lhs => rw [show w * (h - L) = (h - L) * w from Nat.mul_comm w (h - L),
    sum_range_mul_eq (h - L) w]
  have hpt : ∀ a b, b < w →
      |tvEnt c L h w (fun x => if x = p then 1 else 0) (h * (w - L) + (a * w + b))| =
        if b = p % w then
          (if a ≤ p / w ∧ p / w - a < c.length then |coefAt c (p / w - a)| else 0)
        else 0 := by
    intro a b hb
    rw [tvEnt, if_neg (by omega), Nat.add_sub_cancel_left,
      mul_add_div_eq a b w hb, mul_add_mod_eq a b w hb]
    by_cases hbr : b = p % w
    · subst hbr
      have e : ∀ i ∈ Finset.range c.length,
          coefAt c i * (if (a + i) * w + p % w = p then (1 : ℚ) else 0) =
            coefAt c i * (if a + i = p / w then 1 else 0) := by
        intro i _
        by_cases hip : a + i = p / w
        · rw [if_pos (by rw [hip]; omega), if_pos hip]
        · rw [if_neg (fun hcon => ?_), if_neg hip]
          exact hip (by
            have e2 := mul_add_div_eq (a + i) (p % w) w hrw
            rw [hcon] at e2
            exact e2.symm)
      rw [Finset.sum_congr rfl e, sum_coef_shift_indicator c a (p / w),
        apply_ite abs, abs_zero, if_pos rfl]
    · rw [if_neg hbr]
      have e : ∀ i ∈ Finset.range c.length,
          coefAt c i * (if (a + i) * w + b = p then (1 : ℚ) else 0) = 0 := by
        intro i _
        rw [if_neg (fun hcon => ?_), mul_zero]
        exact hbr (by
          have e2 := mul_add_mod_eq (a + i) b w hb
          rw [hcon] at e2
          exact e2.symm)
      rw [Finset.sum_congr rfl e, Finset.sum_const_zero, abs_zero]
  have hcongr : (∑ a ∈ Finset.range (h - L), ∑ b ∈ Finset.range w,
      |tvEnt c L h w (fun x => if x = p then 1 else 0) (h * (w - L) + (a * w + b))|) =
      ∑ a ∈ Finset.range (h - L), ∑ b ∈ Finset.range w,
        (if b = p % w then
          (if a ≤ p / w ∧ p / w - a < c.length then |coefAt c (p / w - a)| else 0)
        else 0) := by
    refine Finset.sum_congr rfl (fun a _ => Finset.sum_congr rfl (fun b hb => ?_))
    exact hpt a b (Finset.mem_range.mp hb)
  rw [hcongr]
  have hcollapse : ∀ a ∈ Finset.range (h - L),
      (∑ b ∈ Finset.range w,
        if b = p % w then
          (if a ≤ p / w ∧ p / w - a < c.length then |coefAt c (p / w - a)| else 0)
        else 0) =
        (if a ≤ p / w ∧ p / w - a < c.length then |coefAt c (p / w - a)| else 0) := by
    intro a _
    rw [Finset.sum_ite_eq' (Finset.range w) (p % w), if_pos (Finset.mem_range.mpr hrw)]
  rw [Finset.sum_congr rfl hcollapse, sum_refl_window (fun i => |coefAt c i|) (h - L)
    c.length (p / w)]
  refine Finset.sum_congr rfl (fun i _ => ?_)
  by_cases hcond : i ≤ p / w ∧ p / w - i < h - L
  · rw [if_pos hcond, if_pos ((vert_cond_iff h w L i p w0).mpr hcond)]
  · rw [if_neg hcond, if_neg (fun hcon => hcond ((vert_cond_iff h w L i p w0).mp hcon))]

/-- `Kmat` really is the matrix of the stacked operator: within the TV
    block, row `m` of `Kmat` dotted with (the flattening of) any image `u`
    reproduces `_tv(u)[m]` — so its rows are exactly the TV difference rows
    of `D` (the data rows are `lambd * e_p` directly by definition). -/
theorem tvEnt_eq_Kmat_dot (c : List ℚ) (L : ℕ) (lambd : ℚ) (h w : ℕ)
    (hk : c.length = L + 1) (hh : L < h) (hw : L < w) (u : ℕ → ℚ) (m : ℕ)
    (hm : m < tvLen L h w) :
    tvEnt c L h w u m = ∑ p ∈ Finset.range (h * w), Kmat c L lambd h w m p * u p := by
  have hhw : (h - 1) * w + w = h * w := by
    have e : (h - 1 + 1) * w = (h - 1) * w + w := Nat.succ_mul _ _
    rw [show h - 1 + 1 = h by omega] at e
    omega
  have key : ∀ x : ℕ → ℕ, (∀ i, i < c.length → x i < h * w) →
      (∑ i ∈ Finset.range c.length, coefAt c i * u (x i)) =
        ∑ p ∈ Finset.range (h * w),
          (∑ i ∈ Finset.range c.length,
            coefAt c i * (if x i = p then 1 else 0)) * u p := by
    intro x hx
    symm
    calc ∑ p ∈ Finset.range (h * w),
          (∑ i ∈ Finset.range c.length, coefAt c i * (if x i = p then 1 else 0)) * u p
        = ∑ p ∈ Finset.range (h * w), ∑ i ∈ Finset.range c.length,
            coefAt c i * (if x i = p then 1 else 0) * u p :=
          Finset.sum_congr rfl (fun p _ => Finset.sum_mul _ _ _)
      _ = ∑ i ∈ Finset.range c.length, ∑ p ∈ Finset.range (h * w),
            coefAt c i * (if x i = p then 1 else 0) * u p := Finset.sum_comm
      _ = ∑ i ∈ Finset.range c.length, coefAt c i * u (x i) := by
          refine Finset.sum_congr rfl (fun i hi => ?_)
          have e : ∀ p ∈ Finset.range (h * w),
              coefAt c i * (if x i = p then (1 : ℚ) else 0) * u p =
                if x i = p then coefAt c i * u p else 0 := by
            intro p _
            by_cases hxp : x i = p
            · rw [if_pos hxp, if_pos hxp, mul_one]
            · rw [if_neg hxp, if_neg hxp, mul_zero, zero_mul]
          rw [Finset.sum_congr rfl e,
            Finset.sum_ite_eq (Finset.range (h * w)) (x i) (fun p => coefAt c i * u p),
            if_pos (Finset.mem_range.mpr (hx i (Finset.mem_range.mp hi)))]
  have ekp : ∀ p, Kmat c L lambd h w m p =
      tvEnt c L h w (fun y => if y = p then 1 else 0) m := fun p => if_pos hm
  by_cases hmb : m < h * (w - L)
  · have hr : m / (w - L) < h := (Nat.div_lt_iff_lt_mul (by omega)).mpr (by omega)
    have hj : m % (w - L) < w - L := Nat.mod_lt m (by omega)
    have hxlt : ∀ i, i < c.length → m / (w - L) * w + (m % (w - L) + i) < h * w := by
      intro i hi
      have e1 : m / (w - L) * w ≤ (h - 1) * w := Nat.mul_le_mul_right w (by omega)
      omega
    rw [tvEnt, if_pos hmb, key _ hxlt]
    refine Finset.sum_congr rfl (fun p _ => ?_)
    rw [ekp p, tvEnt, if_pos hmb]
  · have hm2 : m - h * (w - L) < w * (h - L) := by
      have := hm
      rw [tvLen] at this
      omega
    have hm2' : m - h * (w - L) < (h - L) * w := by
      rw [← Nat.mul_comm w (h - L)]
      exact hm2
    have ha : (m - h * (w - L)) / w < h - L := (Nat.div_lt_iff_lt_mul (by omega)).mpr hm2'
    have hjw : (m - h * (w - L)) % w < w := Nat.mod_lt _ (by omega)
    have hxlt : ∀ i, i < c.length →
        ((m - h * (w - L)) / w + i) * w + (m - h * (w - L)) % w < h * w := by
      intro i hi
      have e1 : ((m - h * (w - L)) / w + i) * w ≤ (h - 1) * w :=
        Nat.mul_le_mul_right w (by omega)
      omega
    rw [tvEnt, if_neg hmb, key _ hxlt]
    refine Finset.sum_congr rfl (fun p _ => ?_)
    rw [ekp p, tvEnt, if_neg hmb]

/-- The weighted column absolute sum `Σ_i sigma[i] * |K[i,p]|` in closed
    form: the TV block contributes the column sum of `|D|` at `p` (which is
    exactly `tau`'s denominator minus `lambd`) divided by `abs_sum`, and the
    data block contributes `(1/lambd) * lambd = 1`. -/
theorem sigma_absK_sum (c : List ℚ) (L : ℕ) (lambd : ℚ) (h w p : ℕ)
    (hk : c.length = L + 1) (hh : L < h) (hw : L < w) (hp : p < h * w) (hlam : 0 < lambd) :
    (∑ m ∈ Finset.range (dualLen L h w),
        sigma c L lambd h w m * |Kmat c L lambd h w m p|) =
      (tauDenom c L lambd h w p - lambd) / absSum c + 1 := by
  rw [dualLen, Finset.sum_range_add]
  have hTV : (∑ m ∈ Finset.range (tvLen L h w),
      sigma c L lambd h w m * |Kmat c L lambd h w m p|) =
      (tauDenom c L lambd h w p - lambd) / absSum c := by
    have e : ∀ m ∈ Finset.range (tvLen L h w),
        sigma c L lambd h w m * |Kmat c L lambd h w m p| =
          (1 / absSum c) * |tvEnt c L h w (fun x => if x = p then 1 else 0) m| := by
      intro m hm
      have hm' : m < tvLen L h w := Finset.mem_range.mp hm
      rw [sigma, if_pos hm', Kmat, if_pos hm']
    rw [Finset.sum_congr rfl e, ← Finset.mul_sum, tvLen, Finset.sum_range_add,
      tv_delta_abs_sum_h c L h w hk hh hw p hp, tv_delta_abs_sum_v c L h w hk hh hw p hp,
      tauDenom, one_div_mul_eq_div]
    congr 1
    ring
  have hData : (∑ q ∈ Finset.range (h * w),
      sigma c L lambd h w (tvLen L h w + q) * |Kmat c L lambd h w (tvLen L h w + q) p|) =
      1 := by
    have e : ∀ q ∈ Finset.range (h * w),
        sigma c L lambd h w (tvLen L h w + q) * |Kmat c L lambd h w (tvLen L h w + q) p| =
          if q = p then 1 else 0 := by
      intro q _
      rw [sigma, if_neg (by omega), Kmat, if_neg (by omega), Nat.add_sub_cancel_left,
        apply_ite abs, abs_zero, abs_of_pos hlam, mul_ite, mul_zero,
        one_div_mul_cancel (ne_of_gt hlam)]
    rw [Finset.sum_congr rfl e, Finset.sum_ite_eq' (Finset.range (h * w)) p (fun _ => (1 : ℚ)),
      if_pos (Finset.mem_range.mpr hp)]
  rw [hTV, hData]

/-- C2 counterexample: the pointwise preconditioner condition
    `tau[p] * Σ_i sigma[i] * |K[i,p]| ≤ 1` fails for `lambd = 1/2` and
    coefficients `[1/4, -1/4]` on a `3 × 3` image at the interior pixel
    `p = 4`, where the product equals `2`: `sigma`'s TV entries are
    `1/abs_sum = 2`, so the four unit-weight touches contribute
    `4 · 2 · (1/4) = 2` plus `1` from the data row, while
    `tau[4] = 1/(1/2 + 1) · … = 2/3`. -/
theorem step_size_infeasible :
    1 < tau [1 / 4, -1 / 4] 1 (1 / 2) 3 3 4 *
      ∑ m ∈ Finset.range (dualLen 1 3 3),
        sigma [1 / 4, -1 / 4] 1 (1 / 2) 3 3 m * |Kmat [1 / 4, -1 / 4] 1 (1 / 2) 3 3 m 4| := by
  have h14 : |(1 / 4 : ℚ)| = 1 / 4 := abs_of_pos (by norm_num)
  have h12 : |(1 / 2 : ℚ)| = 1 / 2 := abs_of_pos (by norm_num)
  norm_num [tau, tauDenom, sigma, Kmat, tvEnt, coefAt, absSum, dualLen, tvLen,
    Finset.sum_range_succ, h14, h12]

/-- C2 amended: for every `lambd > 0` and coefficient vector with `≥ 2`
    entries, not all zero, and every shape with `h, w > length`, all step
    sizes returned by `_step_size` are strictly positive; and the pointwise
    condition `tau[p] * Σ_i sigma[i]*|K[i,p]| ≤ 1` holds for every pixel
    provided additionally `lambd ≥ 1` and `Σ|coef| ≥ 1` (as in the default
    configuration `lambd = 1`, `coef = [1, -1]`).  Without the extra
    bounds the pointwise condition can fail (see the counterexample), so
    the claim's universal quantification over `lambd > 0` and all
    coefficient vectors is too strong. -/
theorem step_size_feasible (c : List ℚ) (lambd : ℚ) (h w p : ℕ)
    (hc : 2 ≤ c.length) (hh : c.length - 1 < h) (hw : c.length - 1 < w)
    (hp : p < h * w) (hlam : 0 < lambd) (hA : 0 < absSum c) :
    (0 < tau c (c.length - 1) lambd h w p ∧
      ∀ m < dualLen (c.length - 1) h w, 0 < sigma c (c.length - 1) lambd h w m) ∧
    (1 ≤ lambd → 1 ≤ absSum c →
      tau c (c.length - 1) lambd h w p *
        ∑ m ∈ Finset.range (dualLen (c.length - 1) h w),
          sigma c (c.length - 1) lambd h w m *
            |Kmat c (c.length - 1) lambd h w m p| ≤ 1) := by
  set L := c.length - 1 with hL
  have hk : c.length = L + 1 := by omega
  have hT1 : (0 : ℚ) ≤ ∑ i ∈ Finset.range (w - L),
      if i ≤ p % w ∧ p % w ≤ i + L then |coefAt c (p % w - i)| else 0 :=
    Finset.sum_nonneg (fun i _ => by positivity)
  have hT2 : (0 : ℚ) ≤ ∑ i ∈ Finset.range c.length,
      if w * i ≤ p ∧ p - w * i < w * (h - L) then |coefAt c i| else 0 :=
    Finset.sum_nonneg (fun i _ => by positivity)
  have hden : 0 < tauDenom c L lambd h w p := by
    rw [tauDenom]
    linarith
  refine ⟨⟨?_, ?_⟩, ?_⟩
  · rw [tau]
    exact one_div_pos.mpr hden
  · intro m _
    rw [sigma]
    split
    · exact one_div_pos.mpr hA
    · exact one_div_pos.mpr hlam
  · intro hlam1 hA1
    rw [sigma_absK_sum c L lambd h w p hk hh hw hp hlam, tau, one_div_mul_eq_div,
      div_le_one hden]
    have hS : tauDenom c L lambd h w p - lambd =
        (∑ i ∈ Finset.range (w - L),
          if i ≤ p % w ∧ p % w ≤ i + L then |coefAt c (p % w - i)| else 0) +
        ∑ i ∈ Finset.range c.length,
          if w * i ≤ p ∧ p - w * i < w * (h - L) then |coefAt c i| else 0 := by
      rw [tauDenom]
      ring
    have hS0 : 0 ≤ tauDenom c L lambd h w p - lambd := by rw [hS]; linarith
    have hdivle : (tauDenom c L lambd h w p - lambd) / absSum c ≤
        tauDenom c L lambd h w p - lambd := div_le_self hS0 hA1
    linarith

theorem step_size_feasible_witness :
    (2 ≤ ([1, -1] : List ℚ).length ∧ ([1, -1] : List ℚ).length - 1 < 2 ∧
      ([1, -1] : List ℚ).length - 1 < 2 ∧ 0 < 2 * 2 ∧ (0 : ℚ) < 1 ∧
      0 < absSum [1, -1] ∧ (1 : ℚ) ≤ 1 ∧ 1 ≤ absSum [1, -1]) ∧
    tau [1, -1] (([1, -1] : List ℚ).length - 1) 1 2 2 0 *
      ∑ m ∈ Finset.range (dualLen (([1, -1] : List ℚ).length - 1) 2 2),
        sigma [1, -1] (([1, -1] : List ℚ).length - 1) 1 2 2 m *
          |Kmat [1, -1] (([1, -1] : List ℚ).length - 1) 1 2 2 m 0| ≤ 1 :=
  ⟨⟨by norm_num, by norm_num, by norm_num, by norm_num, by norm_num,
      by norm_num [absSum, coefAt, Finset.sum_range_succ], by norm_num,
      by norm_num [absSum, coefAt, Finset.sum_range_succ]⟩,
    (step_size_feasible [1, -1] 1 2 2 0 (by norm_num) (by norm_num) (by norm_num)
      (by norm_num) (by norm_num)
      (by norm_num [absSum, coefAt, Finset.sum_range_succ])).2 (by norm_num)
      (by norm_num [absSum, coefAt, Finset.sum_range_succ])⟩

theorem initialization_spec_witness :
    0 < tvLen (mkTotalVariation 1 5 [1, -1] 1 1 true false).length 2 2 ∧
    (initState (mkTotalVariation 1 5 [1, -1] 1 1 true false) 2 2
        (fun p => if p = 0 then -1/2 else 3/2)).dual 0 =
      clip (-1) 1 (sigma [1, -1] 1 1 2 2 0 *
        tvEnt [1, -1] 1 2 2 (fun p => if p = 0 then -1/2 else 3/2) 0) :=
  ⟨by norm_num [tvLen, mkTotalVariation],
    (initialization_spec (mkTotalVariation 1 5 [1, -1] 1 1 true false) 2 2
      (fun p => if p = 0 then -1/2 else 3/2)).2.1 0
      (by norm_num [tvLen, mkTotalVariation])⟩

end TV
